import Mathlib

/-!
Verification of the TinyCloud authorization/event engine against its
natural-language specification.

The definitions below are a shallow embedding of the Rust sources:
* `tinycloud-lib/src/resource.rs` (resource identifiers and the extension check),
* `tinycloud-core/src/types/resource.rs` (the `Resource` wrapper),
* `tinycloud-core/src/models/delegation.rs` (`validate`, `save`),
* `tinycloud-core/src/events/mod.rs` (`epoch_hash`, `hash_inv`),
* `tinycloud-core/src/db.rs` (`transact`, `resolve_pkh_did`, `get_filtered_delegations`),
* `src/routes/mod.rs` (the `/invoke` input dispatch),
* `tinycloud-lib/src/authorization.rs` (header decoding).

Machine integers (`i64`, timestamps) are modelled as `Int`; byte vectors as
`List Nat`; database tables as Lean lists of row structures; a database
transaction is a pure function from a database state to `Except error
(state × output)` — the caller keeps the old state on `error`, which models
the rollback performed by the SQL engine. Rust's `str::starts_with` is
modelled as a prefix check on the character list of a string.
-/

namespace TinyCloud

/-!
The following `enc…` functions model the external `serde_ipld_dagcbor`
encoder: a deterministic, injective byte serialization of each document
shape. Only their composition with `blake3` is relevant to the claims.
-/

/-- Rust's `str::starts_with`, modelled as a prefix test on character
lists (extensionally the same as `String.startsWith`, but evaluable by the
kernel). -/
def strStartsWith (s pfx : String) : Bool :=
  pfx.data.isPrefixOf s.data

/-- Space identifier, from `SpaceId` in `tinycloud-lib/src/resource.rs`:
a base DID together with a short name. DIDs are modelled as strings. -/
structure SpaceId where
  did : String
  name : String
deriving DecidableEq, Repr

/-- Structured resource identifier, from `ResourceId` in
`tinycloud-lib/src/resource.rs`: a space, a service, and optional path,
query and fragment components. -/
structure ResourceId where
  space : SpaceId
  service : String
  path : Option String
  query : Option String
  fragment : Option String
deriving DecidableEq, Repr

/-- Error cases of the extension check, from `ResourceCheckError` in
`tinycloud-lib/src/resource.rs`. -/
inductive ResourceCheckError where
  | incorrectSpace
  | incorrectService
  | incorrectFragment
  | doesNotExtendPath
deriving DecidableEq, Repr

/-- The pure extension check, translated from `ResourceId::extends` in
`tinycloud-lib/src/resource.rs` (lines 192–211). `self` is the extension
(child), `base` the parent. The query component is never inspected. -/
def ResourceId.extends (self base : ResourceId) : Except ResourceCheckError Unit :=
  if base.space ≠ self.space then
    .error .incorrectSpace
  else if base.service ≠ self.service then
    .error .incorrectService
  else if base.fragment ≠ self.fragment then
    .error .incorrectFragment
  else if (match self.path, base.path with
    | some s, some b => !(strStartsWith s b)
    | some _, none => false
    | none, none => false
    | none, some _ => true) then
    .error .doesNotExtendPath
  else
    .ok ()

/-- Resource, from `Resource` in `tinycloud-core/src/types/resource.rs`:
either a structured tinycloud resource identifier or an opaque URI. -/
inductive Resource where
  | tinycloud (r : ResourceId)
  | other (uri : String)
deriving DecidableEq, Repr

/-- The space of a resource, from `Resource::space` (named `orbit` in an
older revision of `tinycloud-core/src/types/resource.rs`): the space of a
structured resource, none for an opaque URI. -/
def Resource.space : Resource → Option SpaceId
  | .tinycloud r => some r.space
  | .other _ => none

/-- The structured resource of a `Resource`, from
`Resource::tinycloud_resource`. -/
def Resource.tinycloud_resource : Resource → Option ResourceId
  | .tinycloud r => some r
  | .other _ => none

/-- Rust's `Result::is_ok` on the extension check result. -/
def checkIsOk : Except ResourceCheckError Unit → Bool
  | .ok _ => true
  | .error _ => false

/-- Boolean extension check between resources, from `Resource::extends` in
`tinycloud-core/src/types/resource.rs`: structured against structured uses
`ResourceId::extends`, opaque against opaque uses string-prefix, and any
mixed pair does not extend. -/
def Resource.extends : Resource → Resource → Bool
  | .tinycloud a, .tinycloud b => checkIsOk (a.extends b)
  | .other a, .other b => strStartsWith a b
  | .tinycloud _, .other _ => false
  | .other _, .tinycloud _ => false

/-- Capability, from `Capability` in `tinycloud-core/src/util.rs`: a pair of
a resource and an ability. Abilities (`namespace/action` strings, validated
by the external `ucan_capabilities_object` crate) are modelled as strings. -/
structure Capability where
  resource : Resource
  ability : String
deriving DecidableEq, Repr

/-- Path condition of the specification's extension rule: the child's path
has the parent's path as a prefix, an absent parent path acting as a
wildcard matching any child path. -/
def specPathExtends (childPath parentPath : Option String) : Prop :=
  match parentPath with
  | none => True
  | some b =>
    match childPath with
    | none => False
    | some s => strStartsWith s b = true

instance (c p : Option String) : Decidable (specPathExtends c p) := by
  unfold specPathExtends
  cases p with
  | none => exact inferInstanceAs (Decidable True)
  | some b =>
    cases c with
    | none => exact inferInstanceAs (Decidable False)
    | some s => exact inferInstanceAs (Decidable (_ = true))

/-- Bytes and Blake3 digests. Modelled from the spec: "Hash — a 32-byte
Blake3 digest. Every event, epoch, and blob is identified by one." The
repository's `hash` module (the Blake3 wrapper) is not among the sources;
Blake3 is an external primitive and is modelled as an injective function of
the input bytes — the standard content-addressing idealisation — here the
identity on byte lists. -/
abbrev Hash := List Nat

/-- Blake3 digest of a byte vector, see the `Hash` doc comment. -/
def blake3 (bytes : List Nat) : Hash := bytes

/-- Content identifier: a multicodec paired with a multihash digest, from
the spec: "A Hash converts to a CID by prefixing a multicodec". -/
structure Cid where
  codec : Nat
  digest : Hash
deriving DecidableEq, Repr

/-- Hash-to-CID conversion, from `Hash::to_cid(codec)` used throughout
`tinycloud-core` (the `hash` module itself is not among the sources; the
call sites pass the codec explicitly). -/
def hashToCid (codec : Nat) (h : Hash) : Cid := ⟨codec, h⟩

/-- CID-to-Hash conversion, from `Hash::from(Cid)`: keeps the digest. -/
def hashFromCid (c : Cid) : Hash := c.digest

/-- A row of the `delegation` table, from `Model` in
`tinycloud-core/src/models/delegation.rs`. Timestamps are `Int` seconds. -/
structure DelegationRow where
  id : Hash
  delegator : String
  delegatee : String
  expiry : Option Int
  issued_at : Option Int
  not_before : Option Int
  serialization : List Nat
deriving DecidableEq, Repr

/-- A row of the `abilities` table (`abilities::Model`, referenced from
`models/delegation.rs`; the model file itself is not among the sources, its
columns `delegation`, `resource`, `ability` are fixed by the spec's state
layout and the uses in `delegation.rs` and `db.rs`). -/
structure AbilityRow where
  delegation : Hash
  resource : Resource
  ability : String
deriving DecidableEq, Repr

/-- A row of the `parent_delegations` table (`parent_delegations::Model`,
columns `child`, `parent` per the spec's state layout and the uses in
`models/delegation.rs`). -/
structure ParentRow where
  child : Hash
  parent : Hash
deriving DecidableEq, Repr

/-- In-memory delegation, from `DelegationInfo` in
`tinycloud-core/src/util.rs` (the `delegation` payload and raw credential
are kept separately as serialization bytes). -/
structure DelegationInfo where
  capabilities : List Capability
  delegator : String
  delegate : String
  parents : List Cid
  expiry : Option Int
  not_before : Option Int
  issued_at : Option Int
deriving DecidableEq, Repr

/-- Validation errors, from `DelegationError` in
`tinycloud-core/src/models/delegation.rs`. -/
inductive DelegationError where
  | invalidTime
  | invalidSignature
  | unauthorizedDelegator (d : String)
  | unauthorizedCapability (r : Resource) (a : String)
  | missingParents
  | expiryExceedsParent
  | notBeforePrecedesParent
deriving DecidableEq, Repr

/-- Whether a capability depends on delegated authority, from the filter in
`validate` (`models/delegation.rs` lines 167–177): a capability is dependent
unless its resource has a space whose root DID equals the delegator. -/
def isDependent (delegator : String) (c : Capability) : Bool :=
  match c.resource.space with
  | some o => decide (o.did ≠ delegator)
  | none => true

/-- The dependent capabilities of a delegation (`validate`, lines 167–177). -/
def dependantCaps (d : DelegationInfo) : List Capability :=
  d.capabilities.filter (isDependent d.delegator)

/-- Parent rows matching by CID and delegatee (`validate`, lines 186–193):
rows whose id is among the delegation's parent CIDs and whose delegatee
equals this delegation's delegator. -/
def matchingParents (dels : List DelegationRow) (d : DelegationInfo) : List DelegationRow :=
  dels.filter (fun p =>
    decide (p.id ∈ d.parents.map hashFromCid) && decide (p.delegatee = d.delegator))

/-- Expiry containment check for one parent (`validate`, lines 209–213). -/
def expiryValid (p : DelegationRow) (d : DelegationInfo) : Bool :=
  match p.expiry, d.expiry with
  | none, _ => true
  | some _, none => false
  | some pe, some de => decide (de ≤ pe)

/-- Not-before containment check for one parent (`validate`, lines 215–219). -/
def notBeforeValid (p : DelegationRow) (d : DelegationInfo) : Bool :=
  match p.not_before, d.not_before with
  | none, _ => true
  | some _, none => false
  | some pn, some dn => decide (dn ≥ pn)

/-- The time filter applied to matching parents (`validate`, lines 204–230). -/
def keepParent (d : DelegationInfo) (p : DelegationRow) : Bool :=
  expiryValid p d && notBeforeValid p d

/-- The abilities of the surviving parents, flattened (`validate`, line 243:
`parents.load_many(abilities::Entity)` followed by `.iter().flatten()`). -/
def parentAbilities (abs : List AbilityRow) (parents : List DelegationRow) : List AbilityRow :=
  parents.flatMap (fun p => abs.filter (fun a => decide (a.delegation = p.id)))

/-- Whether some surviving parent capability supports a dependent child
capability (`validate`, lines 246–251): some parent ability's resource is
extended by the child's and the ability strings are equal. -/
def capSupported (abs : List AbilityRow) (parents : List DelegationRow) (c : Capability) : Bool :=
  (parentAbilities abs parents).any (fun pc =>
    c.resource.extends pc.resource && decide (c.ability = pc.ability))

/-- The delegation validator, translated from `validate` in
`tinycloud-core/src/models/delegation.rs` (lines 162–261). The database is
the `delegation` and `abilities` tables. -/
def validate (dels : List DelegationRow) (abs : List AbilityRow) (d : DelegationInfo) :
    Except DelegationError Unit :=
  match (dependantCaps d).isEmpty, d.parents.isEmpty with
  | true, _ => .ok ()
  | false, true => .error .missingParents
  | false, false =>
    if (matchingParents dels d).isEmpty then .error .missingParents
    else if ((matchingParents dels d).filter (keepParent d)).isEmpty
        && (matchingParents dels d).any (fun p => !expiryValid p d) then
      .error .expiryExceedsParent
    else if ((matchingParents dels d).filter (keepParent d)).isEmpty
        && (matchingParents dels d).any (fun p => !notBeforeValid p d) then
      .error .notBeforePrecedesParent
    else
      match (dependantCaps d).find?
          (fun c => !capSupported abs ((matchingParents dels d).filter (keepParent d)) c) with
      | some c => .error (.unauthorizedCapability c.resource c.ability)
      | none => .ok ()

/-- Expiry bound with an absent bound read as plus infinity (spec: "exp = ⊥
means valid until +∞"). -/
def expiryBound : Option Int → WithTop Int
  | none => ⊤
  | some t => (t : WithTop Int)

/-- Not-before bound with an absent bound read as minus infinity (spec:
"nbf = ⊥ means valid from −∞"). -/
def notBeforeBound : Option Int → WithBot Int
  | none => ⊥
  | some t => (t : WithBot Int)

/-- Concrete parent row used by witnesses. -/
def wParent : DelegationRow :=
  ⟨[0], "did:key:zA", "did:key:zB", none, none, none, [9]⟩

/-- Concrete ability row of `wParent` used by witnesses. -/
def wAbility : AbilityRow :=
  ⟨[0], .tinycloud ⟨⟨"did:key:zA", "s"⟩, "kv", none, none, none⟩, "tinycloud.kv/put"⟩

/-- Concrete dependent capability used by witnesses. -/
def wChildCap : Capability :=
  ⟨.tinycloud ⟨⟨"did:key:zA", "s"⟩, "kv", some "x", none, none⟩, "tinycloud.kv/put"⟩

/-- Concrete child delegation used by witnesses. -/
def wChild : DelegationInfo :=
  ⟨[wChildCap], "did:key:zB", "did:key:zC", [⟨0x55, [0]⟩], none, none, none⟩

/-- Concrete expired parent row used by the C3 witness. -/
def wLateParent : DelegationRow :=
  ⟨[0], "did:key:zA", "did:key:zB", some 10, none, none, [9]⟩

/-- Concrete child delegation out-living its parent, used by the C3 witness. -/
def wLateChild : DelegationInfo :=
  ⟨[wChildCap], "did:key:zB", "did:key:zC", [⟨0x55, [0]⟩], some 20, none, none⟩

/-- KV metadata (`Metadata`, a string-to-string map), modelled as an
association list. -/
abbrev Metadata := List (String × String)

/-- KV operation attached to an invocation, from `Operation` in
`tinycloud-core/src/events/mod.rs` (lines 52–64). -/
inductive Operation where
  | kvWrite (space : SpaceId) (key : String) (value : Hash) (metadata : Metadata)
  | kvDelete (space : SpaceId) (key : String) (version : Option (Int × Hash × Int))
deriving DecidableEq, Repr

/-- The space an operation touches, from `Operation::space`. -/
def Operation.space : Operation → SpaceId
  | .kvWrite sp _ _ _ => sp
  | .kvDelete sp _ _ => sp

/-- In-memory invocation, from `InvocationInfo` in
`tinycloud-core/src/util.rs`. -/
structure InvocationInfo where
  capabilities : List Capability
  invoker : String
  parents : List Cid
deriving DecidableEq, Repr

/-- In-memory revocation, from `RevocationInfo` in
`tinycloud-core/src/util.rs`. -/
structure RevocationInfo where
  parents : List Cid
  revoked : Cid
  revoker : String
deriving DecidableEq, Repr

/-- An event together with its serialization bytes, from `Event` and
`SerializedEvent` in `tinycloud-core/src/events/mod.rs`. -/
inductive Event where
  | delegation (d : DelegationInfo) (ser : List Nat)
  | invocation (i : InvocationInfo) (ser : List Nat) (ops : List Operation)
  | revocation (r : RevocationInfo) (ser : List Nat)
deriving DecidableEq, Repr

/-- Event hash, from `Event::hash` in `events/mod.rs` (lines 129–135):
the Blake3 digest of the serialization bytes, whichever the variant. -/
def Event.hash : Event → Hash
  | .delegation _ ser => blake3 ser
  | .invocation _ ser _ => blake3 ser
  | .revocation _ ser => blake3 ser

/-- Event entry of an epoch document, from `OneOrMany` in `events/mod.rs`. -/
inductive OneOrMany where
  | one (c : Cid)
  | many (cs : List Cid)
deriving DecidableEq, Repr

/-- Op descriptor hashed inside `hash_inv`, from the local `Op` enum in
`events/mod.rs` (lines 184–194): the key plus either the value CID and
metadata (put) or the version tuple with its epoch CID (delete). -/
inductive OpDoc where
  | kvWrite (key : String) (value : Cid) (metadata : Metadata)
  | kvDelete (key : String) (version : Option (Int × Cid × Int))
deriving DecidableEq, Repr

/-- The dag-cbor codec constant `CBOR_CODEC` from `events/mod.rs`. -/
def CBOR_CODEC : Nat := 0x71

/-- The raw codec constant `RAW_CODEC` from `events/mod.rs`. -/
def RAW_CODEC : Nat := 0x55

/-- Byte encoding of a natural number (dag-cbor model). -/
def encNat (n : Nat) : List Nat := [n]

/-- Byte encoding of a signed integer (dag-cbor model). -/
def encInt : Int → List Nat
  | .ofNat n => [0, n]
  | .negSucc n => [1, n]

/-- Byte encoding of a string (dag-cbor model). -/
def encString (s : String) : List Nat :=
  s.length :: s.data.map Char.toNat

/-- Length-prefixed byte encoding of a list (dag-cbor model). -/
def encList (enc : α → List Nat) (l : List α) : List Nat :=
  l.length :: l.flatMap (fun x => (enc x).length :: enc x)

/-- Byte encoding of a CID (dag-cbor model). -/
def encCid (c : Cid) : List Nat :=
  c.codec :: c.digest.length :: c.digest

/-- Byte encoding of a metadata map (dag-cbor model). -/
def encMetadata (m : Metadata) : List Nat :=
  encList (fun kv => encString kv.1 ++ encString kv.2) m

/-- Byte encoding of an optional version tuple (dag-cbor model). -/
def encVersion : Option (Int × Cid × Int) → List Nat
  | none => [0]
  | some (a, c, b) => 1 :: (encInt a ++ encCid c ++ encInt b)

/-- Byte encoding of an op descriptor (dag-cbor model). -/
def encOpDoc : OpDoc → List Nat
  | .kvWrite key value metadata => 0 :: (encString key ++ encCid value ++ encMetadata metadata)
  | .kvDelete key version => 1 :: (encString key ++ encVersion version)

/-- Byte encoding of an epoch event entry (dag-cbor model). -/
def encEventEntry : OneOrMany → List Nat
  | .one c => 0 :: encCid c
  | .many cs => 1 :: encList encCid cs

/-- Byte encoding of the epoch document `{parents, events}` (dag-cbor
model of the `Epoch` struct in `events/mod.rs`). -/
def encEpochDoc (parents : List Cid) (events : List OneOrMany) : List Nat :=
  encList encCid parents ++ encList encEventEntry events

/-- The op descriptors of an invocation restricted to one space, from the
`filter_map` in `hash_inv` (`events/mod.rs` lines 196–218): value and
version hashes are converted to CIDs with `CBOR_CODEC` (0x71). -/
def opDocsFor (sp : SpaceId) (ops : List Operation) : List OpDoc :=
  ops.filterMap (fun op => match op with
    | .kvWrite space key value metadata =>
      if space = sp then some (.kvWrite key (hashToCid CBOR_CODEC value) metadata) else none
    | .kvDelete space key version =>
      if space = sp then
        some (.kvDelete key (version.map (fun v => (v.1, hashToCid CBOR_CODEC v.2.1, v.2.2))))
      else none)

/-- Epoch event entry for an invocation, from `hash_inv` in `events/mod.rs`
(lines 181–229): the invocation's raw CID alone when no op touches the
space, else the list headed by the raw invocation CID followed by the
CBOR-codec CIDs of the Blake3-hashed op descriptors. -/
def hash_inv (invHash : Hash) (sp : SpaceId) (ops : List Operation) : OneOrMany :=
  if (opDocsFor sp ops).isEmpty then .one (hashToCid RAW_CODEC invHash)
  else .many (hashToCid RAW_CODEC invHash ::
    (opDocsFor sp ops).map (fun op => hashToCid CBOR_CODEC (blake3 (encOpDoc op))))

/-- The epoch id, from `epoch_hash` in `events/mod.rs` (lines 158–176):
Blake3 of the dag-cbor document whose parents are dag-cbor-codec CIDs and
whose event entries are raw CIDs for delegations and revocations and
`hash_inv` entries for invocations. -/
def epoch_hash (space : SpaceId) (events : List (Hash × Event)) (parents : List Hash) : Hash :=
  blake3 (encEpochDoc (parents.map (hashToCid 0x71))
    (events.map (fun he => match he.2 with
      | .invocation _ _ ops => hash_inv he.1 space ops
      | .delegation _ _ => .one (hashToCid RAW_CODEC he.1)
      | .revocation _ _ => .one (hashToCid RAW_CODEC he.1))))

/-- The epoch-id construction in the words of the specification (§3 and
claim C4), parameterised by the multicodec used to convert blob and version
hashes to CIDs inside op descriptors: the claim states raw (0x55), the code
uses dag-cbor (0x71). -/
def epochHashSpec (blobCodec : Nat) (space : SpaceId) (events : List (Hash × Event))
    (parents : List Hash) : Hash :=
  blake3 (encEpochDoc (parents.map (fun h => hashToCid 0x71 h))
    (events.map (fun he => match he.2 with
      | .delegation _ _ => .one (hashToCid 0x55 he.1)
      | .revocation _ _ => .one (hashToCid 0x55 he.1)
      | .invocation _ _ ops =>
        match ops.filterMap (fun op => match op with
          | .kvWrite sp2 key value metadata =>
            if sp2 = space then some (OpDoc.kvWrite key (hashToCid blobCodec value) metadata)
            else none
          | .kvDelete sp2 key version =>
            if sp2 = space then
              some (OpDoc.kvDelete key
                (version.map (fun v => (v.1, hashToCid blobCodec v.2.1, v.2.2))))
            else none) with
        | [] => .one (hashToCid 0x55 he.1)
        | opDocs => .many (hashToCid 0x55 he.1 ::
            opDocs.map (fun opd => hashToCid 0x71 (blake3 (encOpDoc opd)))))))

/-- A row of the `epoch` table (columns `id`, `space`, `seq` per the spec's
state layout and the uses in `db.rs`; the model file is not among the
sources). -/
structure EpochRow where
  id : Hash
  space : SpaceId
  seq : Int
deriving DecidableEq, Repr

/-- A row of the `epoch_order` table, from `Model` in
`tinycloud-core/src/relationships/epoch_order.rs`. -/
structure EpochOrderRow where
  parent : Hash
  child : Hash
  space : SpaceId
deriving DecidableEq, Repr

/-- A row of the `event_order` table, from `Model` in
`tinycloud-core/src/relationships/event_order.rs`. -/
structure EventOrderRow where
  seq : Int
  epoch : Hash
  epoch_seq : Int
  event : Hash
  space : SpaceId
deriving DecidableEq, Repr

/-- A row of the `revocation` table. Modelled from the spec: "a revocation
marks a delegation as no-longer-valid but does not remove it" and the state
layout `revocation(id, …)`; the `models/revocation.rs` file is not among the
sources. `revoked` is the id of the revoked delegation. -/
structure RevocationRow where
  id : Hash
  revoked : Hash
deriving DecidableEq, Repr

/-- The relational database state: one list per table of the spec's
persisted state layout. -/
structure DbState where
  spaces : List SpaceId
  delegations : List DelegationRow
  abilities : List AbilityRow
  parentEdges : List ParentRow
  revocations : List RevocationRow
  invocations : List Hash
  epochs : List EpochRow
  epochOrder : List EpochOrderRow
  eventOrder : List EventOrderRow
  actors : List String
deriving DecidableEq, Repr

/-- Transaction-level errors, from `TxError` in `tinycloud-core/src/db.rs`
(restricted to the variants the claims mention). -/
inductive TxError where
  | invalidDelegation (e : DelegationError)
  | spaceNotFound
deriving DecidableEq, Repr

/-- Idempotent actor insert (`save_actors` in `models/delegation.rs`,
`on_conflict do_nothing` on the actor id). -/
def insertActor (l : List String) (a : String) : List String :=
  if a ∈ l then l else l ++ [a]

/-- Actor upserts, from `save_actors` in `models/delegation.rs`. -/
def save_actors (acts : List String) (l : List String) : List String :=
  acts.foldl insertActor l

/-- Delegation persistence, from `save` in `models/delegation.rs` (lines
263–320): upsert the actors, then insert the delegation row keyed by the
Blake3 hash of the serialization with `on_conflict do_nothing` — when the
row already exists the function returns the hash immediately and neither
abilities nor parent edges are touched; otherwise the ability rows and
parent edges are inserted. -/
def save (st : DbState) (d : DelegationInfo) (ser : List Nat) : DbState × Hash :=
  if st.delegations.any (fun row => decide (row.id = blake3 ser)) then
    ({ st with actors := save_actors [d.delegator, d.delegate] st.actors }, blake3 ser)
  else
    ({ st with
        actors := save_actors [d.delegator, d.delegate] st.actors,
        delegations := st.delegations ++
          [⟨blake3 ser, d.delegator, d.delegate, d.expiry, d.issued_at, d.not_before, ser⟩],
        abilities := st.abilities ++
          d.capabilities.map (fun c => ⟨blake3 ser, c.resource, c.ability⟩),
        parentEdges := st.parentEdges ++
          d.parents.map (fun p => ⟨blake3 ser, hashFromCid p⟩) }, blake3 ser)

/-- Delegation event processing, from `process` in `models/delegation.rs`:
verify then validate then save. Signature and time verification (`verify`)
calls external crates (`ssi`, `cacao`) and constrains only the signature
and clock, none of the fields the claims concern; it is modelled as
accepting. -/
def dprocess (st : DbState) (d : DelegationInfo) (ser : List Nat) : Except TxError DbState :=
  match validate st.delegations st.abilities d with
  | .error e => .error (.invalidDelegation e)
  | .ok _ => .ok (save st d ser).1

/-- Invocation event processing. Modelled from the spec: `invocation::process`
is not among the sources; it records the invocation row (and its versioned
KV operations, which no claim concerns and which are omitted here). -/
def iprocess (st : DbState) (h : Hash) : DbState :=
  { st with invocations := st.invocations ++ [h] }

/-- Revocation event processing. Modelled from the spec: `revocation::process`
is not among the sources; "a revocation marks a delegation as
no-longer-valid", recorded as a revocation row. -/
def rprocess (st : DbState) (r : RevocationInfo) (h : Hash) : DbState :=
  { st with revocations := st.revocations ++ [⟨h, hashFromCid r.revoked⟩] }

/-- Sequential event processing, from the loop at `db.rs` lines 641–662. -/
def processEvents : DbState → List (Hash × Event) → Except TxError DbState
  | st, [] => .ok st
  | st, (_, .delegation d ser) :: rest =>
    match dprocess st d ser with
    | .error e => .error e
    | .ok st2 => processEvents st2 rest
  | st, (h, .invocation _ _ _) :: rest => processEvents (iprocess st h) rest
  | st, (h, .revocation r _) :: rest => processEvents (rprocess st r h) rest

/-- The spaces an event touches, from `event_spaces` in `db.rs` (lines
405–452): a delegation or invocation touches the spaces of its
capabilities, a revocation touches the spaces in which the revoked event
was ordered. -/
def touchedSpaces (st : DbState) : Event → List SpaceId
  | .delegation d _ => d.capabilities.filterMap (fun c => c.resource.space)
  | .invocation i _ _ => i.capabilities.filterMap (fun c => c.resource.space)
  | .revocation r _ =>
    (st.eventOrder.filter (fun ro => decide (ro.event = hashFromCid r.revoked))).map (·.space)

/-- Add an event to a space's group, skipping it when an event with the
same hash is already present (the per-entry dedup in `event_spaces`). -/
def addToGroup (gs : List (SpaceId × List (Hash × Event))) (s : SpaceId)
    (ev : Hash × Event) : List (SpaceId × List (Hash × Event)) :=
  match gs with
  | [] => [(s, [ev])]
  | (s2, l) :: rest =>
    if s2 = s then
      (s2, if l.any (fun x => decide (x.1 = ev.1)) then l else l ++ [ev]) :: rest
    else (s2, l) :: addToGroup rest s ev

/-- Grouping of events by touched space, from `event_spaces` in `db.rs`.
The source accumulates into a `HashMap` whose iteration order is
unspecified; the model uses first-touch order, which no claim depends on.
Within a space the events keep submission order. -/
def eventSpaces (st : DbState) (evs : List (Hash × Event)) :
    List (SpaceId × List (Hash × Event)) :=
  evs.foldl (fun gs he => (touchedSpaces st he.2).foldl (fun gs2 s => addToGroup gs2 s he) gs) []

/-- The space a capability creates, from the `new_spaces` filter in
`transact` (`db.rs` lines 466–485): a `tinycloud.space/host` ability on a
bare space resource (service "space", no path, no query, no fragment). -/
def hostSpacesOf (c : Capability) : Option SpaceId :=
  match c.resource with
  | .tinycloud r =>
    if c.ability = "tinycloud.space/host" ∧ r.path = none ∧ r.service = "space" ∧
        r.query = none ∧ r.fragment = none then
      some r.space
    else none
  | .other _ => none

/-- The spaces created by a transaction's delegation events, from the
`new_spaces` computation in `transact`. -/
def newSpacesOf (evs : List (Hash × Event)) : List SpaceId :=
  evs.flatMap (fun he => match he.2 with
    | .delegation d _ => d.capabilities.filterMap hostSpacesOf
    | _ => [])

/-- Tip epochs of a space: epoch rows of the space with no child edge in
`epoch_order`, from the `most_recent` query in `transact` (`db.rs` lines
528–548; the epoch side of the left join lives in the `epoch` model file,
which is not among the sources — the join on `(id, space)` is fixed by
`relationships/epoch_order.rs` and the spec: "epoch ids with no child in
epoch_order"). -/
def tips (st : DbState) (s : SpaceId) : List Hash :=
  (st.epochs.filter (fun e => decide (e.space = s) &&
    !(st.epochOrder.any (fun eo => decide (eo.parent = e.id) && decide (eo.space = s))))).map
    (·.id)

/-- Maximum existing sequence number of a space, from the `max_seqs` query
in `transact` (`db.rs` lines 511–525). -/
def maxSeqRows (rows : List EventOrderRow) (s : SpaceId) : Option Int :=
  ((rows.filter (fun r => decide (r.space = s))).map (·.seq)).max?

/-- The sequence number assigned to a new epoch: max existing plus one, or
zero for a space with no prior events (`unwrap_or(0)` at `db.rs` line 556). -/
def nextSeq (st : DbState) (s : SpaceId) : Int :=
  match maxSeqRows st.eventOrder s with
  | some m => m + 1
  | none => 0

/-- Events of a transaction paired with their hashes (`db.rs` lines
461–464). -/
def evHashes (events : List Event) : List (Hash × Event) :=
  events.map (fun e => (e.hash, e))

/-- The per-space event groups of a transaction. -/
def groupsOf (st : DbState) (events : List Event) : List (SpaceId × List (Hash × Event)) :=
  eventSpaces st (evHashes events)

/-- The space table after the `new_spaces` insert (`on_conflict do_nothing`,
`db.rs` lines 488–509). -/
def spacesAfter (st : DbState) (events : List Event) : List SpaceId :=
  st.spaces ++ ((newSpacesOf (evHashes events)).dedup.filter (fun s => ¬ st.spaces.contains s))

/-- Commit summary of a space, from `Commit` in `db.rs`. -/
structure Commit where
  rev : Hash
  seq : Int
  committedEvents : List Hash
  consumedEpochs : List Hash
deriving DecidableEq, Repr

/-- The rows a transaction inserts for one space group, from `transact`
(`db.rs` lines 551–618): the epoch row, one `epoch_order` edge per tip
parent, and one `event_order` row per event with `epoch_seq` the zero-based
index in the group's event list. -/
def spaceCommitRows (st : DbState) (g : SpaceId × List (Hash × Event)) :
    EpochRow × List EpochOrderRow × List EventOrderRow × Commit :=
  (⟨epoch_hash g.1 g.2 (tips st g.1), g.1, nextSeq st g.1⟩,
   (tips st g.1).map (fun p => ⟨p, epoch_hash g.1 g.2 (tips st g.1), g.1⟩),
   g.2.enum.map (fun ie =>
     ⟨nextSeq st g.1, epoch_hash g.1 g.2 (tips st g.1), (ie.1 : Int), ie.2.1, g.1⟩),
   ⟨epoch_hash g.1 g.2 (tips st g.1), nextSeq st g.1, g.2.map (·.1), tips st g.1⟩)

/-- The transaction body, from `transact` in `db.rs` (lines 454–689):
hash the events, group them by space, create the spaces declared by bare
host delegations, fail with `SpaceNotFound` when a touched space is still
missing (the epoch insert's foreign-key failure is mapped to
`SpaceNotFound` at lines 620–627; the constraint itself lives in the
migrations, which are not among the sources — modelled from the spec: "If a
referenced space does not yet exist as a row, the insert fails with
`SpaceNotFound`"), insert the epoch, epoch-order and event-order rows, then
process every event in submission order. -/
def transact (st : DbState) (events : List Event) :
    Except TxError (DbState × List (SpaceId × Commit)) :=
  if (groupsOf st events).any (fun g => !((spacesAfter st events).contains g.1)) then
    .error .spaceNotFound
  else
    match processEvents
        { st with
          spaces := spacesAfter st events,
          epochs := st.epochs ++ (groupsOf st events).map (fun g => (spaceCommitRows st g).1),
          epochOrder := st.epochOrder ++
            (groupsOf st events).flatMap (fun g => (spaceCommitRows st g).2.1),
          eventOrder := st.eventOrder ++
            (groupsOf st events).flatMap (fun g => (spaceCommitRows st g).2.2.1) }
        (evHashes events) with
    | .error e => .error e
    | .ok st2 =>
      .ok (st2, (groupsOf st events).map (fun g => (g.1, (spaceCommitRows st g).2.2.2)))

/-- The outer transaction wrapper, from `SpaceDatabase::transact` in `db.rs`
(lines 166–180): begin a transaction, run the body, commit only on success —
on error the old state stands (rollback). -/
def transactOuter (st : DbState) (events : List Event) :
    DbState × Option (List (SpaceId × Commit)) :=
  match transact st events with
  | .ok (st2, out) => (st2, some out)
  | .error _ => (st, none)

/-- Concrete space used by the C6 scenario. -/
def spX : SpaceId := ⟨"did:pkh:eip155:1:0xA", "default"⟩

/-- Host capability on the space resource with a query component (not bare,
so it creates no space), used by the C6 scenario. -/
def wQueryHostCap : Capability :=
  ⟨.tinycloud ⟨spX, "space", none, some "q", none⟩, "tinycloud.space/host"⟩

/-- Bare host capability on the space resource, used by the C6 scenario. -/
def wBareHostCap : Capability :=
  ⟨.tinycloud ⟨spX, "space", none, none, none⟩, "tinycloud.space/host"⟩

/-- Self-rooted delegation of the query-carrying (non-bare) host capability
from the space owner to a session key. -/
def pDeleg : DelegationInfo :=
  ⟨[wQueryHostCap], "did:pkh:eip155:1:0xA", "did:key:zB", [], none, none, none⟩

/-- The delegation event wrapping `pDeleg` with serialization bytes `[1]`. -/
def pEvent : Event := .delegation pDeleg [1]

/-- Non-self-rooted delegation of the bare host capability, chained to
`pDeleg` via its CID. -/
def dDeleg : DelegationInfo :=
  ⟨[wBareHostCap], "did:key:zB", "did:key:zC", [⟨0x55, blake3 [1]⟩], none, none, none⟩

/-- The delegation event wrapping `dDeleg` with serialization bytes `[2]`. -/
def dEvent : Event := .delegation dDeleg [2]

/-- The empty database. -/
def db0 : DbState := ⟨[], [], [], [], [], [], [], [], [], []⟩

/-- Database with one prior epoch and event in `spX`, used by the C5
witness. -/
def dbW : DbState :=
  ⟨[spX], [], [], [], [], [], [⟨[5], spX, 0⟩], [], [⟨0, [5], 0, [1], spX⟩], []⟩

/-- Invocation event touching `spX`, used by the C5 witness. -/
def wInv : Event :=
  .invocation ⟨[⟨.tinycloud ⟨spX, "kv", some "k", none, none⟩, "tinycloud.kv/get"⟩],
    "did:key:zB", []⟩ [3] []

/-- Byte view of a string. UTF-8 is modelled as the character-code list
(the encoding itself is a bijective external primitive). -/
def strBytes (s : String) : List Nat := s.data.map Char.toNat

/-- Value of a url-safe base64 alphabet character. Modelled from the spec:
the `base64` crate's `URL_SAFE` engine is external. -/
def b64Char (c : Char) : Option Nat :=
  if 'A' ≤ c ∧ c ≤ 'Z' then some (c.toNat - 65)
  else if 'a' ≤ c ∧ c ≤ 'z' then some (c.toNat - 97 + 26)
  else if '0' ≤ c ∧ c ≤ '9' then some (c.toNat - 48 + 52)
  else if c = '-' then some 62
  else if c = '_' then some 63
  else none

/-- Regrouping of 6-bit values into bytes. Modelled from the spec: part of
the external url-safe base64 decoder. -/
def b64Quads : List Nat → Option (List Nat)
  | [] => some []
  | [a, b] => some [a * 4 + b / 16]
  | [a, b, c] => some [a * 4 + b / 16, (b % 16) * 16 + c / 4]
  | a :: b :: c :: d :: rest =>
    (b64Quads rest).map (fun t => (a * 4 + b / 16) :: ((b % 16) * 16 + c / 4) ::
      ((c % 4) * 64 + d) :: t)
  | [_] => none

/-- Url-safe base64 decoding of a padded string. Modelled from the spec:
the `base64` crate's `URL_SAFE` engine is external. -/
def urlSafeB64Decode (s : String) : Option (List Nat) :=
  ((s.data.takeWhile (fun c => c ≠ '=')).mapM b64Char).bind b64Quads

/-- The hash preimage of a received `Authorization` header, from
`TinyCloudDelegation::decode` in `tinycloud-lib/src/authorization.rs`
(lines 43–57): a string containing a dot is a UCAN JWT and its own UTF-8
bytes are the preimage; otherwise the url-safe base64 decoding (the CACAO's
dag-cbor bytes) is. The parsed credential is irrelevant to the hash. -/
def headerBytes (s : String) : Option (List Nat) :=
  if s.data.contains '.' then some (strBytes s) else urlSafeB64Decode s

/-- The event hash of a received header, from `SerializedEvent::hash` in
`events/mod.rs`: Blake3 of the decoded bytes. -/
def eventHashOfHeader (s : String) : Option Hash :=
  (headerBytes s).map blake3

/-- Walk of the delegation graph from delegatee to delegator, from the loop
in `resolve_pkh_did` (`db.rs` lines 848–889): stop on a revisited DID
(visited set), on a missing parent (return the original DID), or on a
`did:pkh:` delegator (return it). The fuel argument bounds the loop; the
source loop terminates because the visited set grows each iteration, and
`dels.length + 2` iterations always suffice. -/
def resolveLoop (dels : List DelegationRow) : Nat → List String → String → String → String
  | 0, _, _, orig => orig
  | fuel + 1, visited, current, orig =>
    if current ∈ visited then orig
    else
      match dels.find? (fun p => decide (p.delegatee = current)) with
      | none => orig
      | some del =>
        if strStartsWith del.delegator "did:pkh:" then del.delegator
        else resolveLoop dels fuel (current :: visited) del.delegator orig

/-- Session-key resolution, from `resolve_pkh_did` in `db.rs`: a DID that
is already `did:pkh:` is returned directly, otherwise the chain is walked. -/
def resolve_pkh_did (dels : List DelegationRow) (did : String) : String :=
  if strStartsWith did "did:pkh:" then did
  else resolveLoop dels (dels.length + 2) [] did did

/-- List-query filters, from `ListFilters` (used by
`get_filtered_delegations` in `db.rs`). -/
structure ListFilters where
  direction : Option String
  path : Option String
  actions : Option (List String)
deriving DecidableEq, Repr

/-- Time validity of a delegation row at query time, from the check at
`db.rs` lines 927–931: not expired (`expiry > now` or absent) and already
valid (`not_before ≤ now` or absent). -/
def rowTimeValid (now : Int) (d : DelegationRow) : Bool :=
  (match d.expiry with
    | some e => decide (e > now)
    | none => true) &&
  (match d.not_before with
    | some n => decide (n ≤ now)
    | none => true)

/-- Space membership of a delegation row, from the check at `db.rs` lines
933–936: some ability's resource lives in the queried space. -/
def rowSpaceMember (abilities : List AbilityRow) (space : SpaceId) : Bool :=
  abilities.any (fun a => decide (a.resource.space = some space))

/-- The filtered list query, from `get_filtered_delegations` in `db.rs`
(lines 893–995): exclude revoked rows (left join against the revocation
table), exclude time-invalid rows, require space membership, then apply the
direction (against the resolved root PKH DID), path-prefix and actions
filters. -/
def get_filtered_delegations (st : DbState) (space : SpaceId) (invoker : String)
    (filters : Option ListFilters) (now : Int) : List DelegationRow :=
  (st.delegations.filter
      (fun d => !(st.revocations.any (fun r => decide (r.revoked = d.id))))).filter
    (fun d =>
      rowTimeValid now d &&
      rowSpaceMember (st.abilities.filter (fun a => decide (a.delegation = d.id))) space &&
      (match filters.bind (·.direction) with
        | some dir =>
          if dir = "created" then
            decide (d.delegator = resolve_pkh_did st.delegations invoker)
          else if dir = "received" then
            decide (d.delegatee = resolve_pkh_did st.delegations invoker)
          else true
        | none => true) &&
      (match filters.bind (·.path) with
        | some pfx =>
          (st.abilities.filter (fun a => decide (a.delegation = d.id))).any (fun a =>
            match a.resource.tinycloud_resource with
            | some r =>
              match r.path with
              | some p => strStartsWith p pfx
              | none => false
            | none => false)
        | none => true) &&
      (match filters.bind (·.actions) with
        | some acts =>
          (st.abilities.filter (fun a => decide (a.delegation = d.id))).any
            (fun a => acts.any (fun act => decide (a.ability = act)))
        | none => true))

/-- Concrete delegation row from a PKH signer to a session key, used by the
C8 witness. -/
def wRowA : DelegationRow :=
  ⟨[4], "did:pkh:eip155:1:0xA", "did:key:zB", none, none, none, [4]⟩

/-- Concrete database for the C8 witness: one unrevoked delegation with one
ability in `spX`. -/
def stW : DbState :=
  ⟨[spX], [wRowA], [⟨[4], .tinycloud ⟨spX, "kv", some "k", none, none⟩, "tinycloud.kv/get"⟩],
    [], [], [], [], [], [], []⟩

/-- Request body states of the `/invoke` route, from `DataIn` in
`src/auth_guards.rs` as used in `src/routes/mod.rs`: no body, one body, or
a multipart body. -/
inductive DataIn where
  | noBody
  | oneBody
  | manyBodies
deriving DecidableEq, Repr

/-- The SQL capabilities of an invocation, from the `sql_caps` filter in
`invoke` (`src/routes/mod.rs` lines 141–158). -/
def sqlCapsOf (caps : List Capability) : List (SpaceId × Option String × String) :=
  caps.filterMap (fun c => match c.resource with
    | .tinycloud r =>
      if r.service = "sql" ∧ strStartsWith c.ability "tinycloud.sql/" = true then
        some (r.space, r.path, c.ability)
      else none
    | .other _ => none)

/-- The put capabilities of an invocation, from the `put_iter` filter in
`invoke` (`src/routes/mod.rs` lines 166–175): `tinycloud.kv/put` abilities
on `kv` resources with a path. -/
def putCapsOf (caps : List Capability) : List (SpaceId × Option String) :=
  caps.filterMap (fun c => match c.resource with
    | .tinycloud r =>
      if c.ability = "tinycloud.kv/put" ∧ r.service = "kv" ∧ r.path.isSome then
        some (r.space, r.path)
      else none
    | .other _ => none)

/-- Outcome of the `/invoke` input dispatch. -/
inductive RouteOutcome where
  | sqlRoute
  | rejected (status : Nat) (msg : String)
  | proceed (inputs : List (SpaceId × String))
deriving DecidableEq, Repr

/-- The `/invoke` input dispatch, from the `match (data, put_iter.next(),
put_iter.next())` in `invoke` (`src/routes/mod.rs` lines 160–227): SQL
capabilities take the SQL route; no put capability proceeds with empty
inputs for an absent or single body; exactly one put capability with one
body stages that body (through the blob store's hasher) for its space and
path; a multipart body with two or more puts is rejected 400 ("Multipart
not yet supported"); every other combination is rejected 400 ("Invalid
inputs"). -/
def invoke_route (caps : List Capability) (data : DataIn) : RouteOutcome :=
  if !(sqlCapsOf caps).isEmpty then .sqlRoute
  else
    match data, (putCapsOf caps).get? 0, (putCapsOf caps).get? 1 with
    | .noBody, none, _ => .proceed []
    | .oneBody, none, _ => .proceed []
    | .oneBody, some (space, some path), none => .proceed [(space, path)]
    | .manyBodies, some _, some _ => .rejected 400 "Multipart not yet supported"
    | _, _, _ => .rejected 400 "Invalid inputs"

theorem checkIsOk_iff (r : Except ResourceCheckError Unit) :
    checkIsOk r = true ↔ r = .ok () := by
  cases r with
  | ok u => cases u; simp [checkIsOk]
  | error e => simp [checkIsOk]

theorem extension_check_ok_iff (child base : ResourceId) :
    child.extends base = .ok () ↔
      (child.space = base.space ∧ child.service = base.service ∧
        child.fragment = base.fragment ∧ specPathExtends child.path base.path) := by
  constructor
  · intro h
    unfold ResourceId.extends at h
    by_cases hs : base.space ≠ child.space
    · simp [hs] at h
    · by_cases hv : base.service ≠ child.service
      · simp [hs, hv] at h
      · by_cases hf : base.fragment ≠ child.fragment
        · simp [hs, hv, hf] at h
        · push_neg at hs hv hf
          refine ⟨hs.symm, hv.symm, hf.symm, ?_⟩
          simp only [hs, hv, hf, ne_eq, not_true_eq_false, if_false] at h
          unfold specPathExtends
          cases hb : base.path with
          | none => trivial
          | some b =>
            cases hc : child.path with
            | none => simp [hb, hc] at h
            | some s =>
              simp only [hb, hc] at h
              by_cases hp : strStartsWith s b
              · exact hp
              · simp [hp] at h
  · rintro ⟨hs, hv, hf, hp⟩
    unfold ResourceId.extends
    simp only [hs, hv, hf, ne_eq, not_true_eq_false, if_false]
    unfold specPathExtends at hp
    cases hb : base.path with
    | none =>
      cases hc : child.path <;> simp [hb, hc]
    | some b =>
      cases hc : child.path with
      | none => rw [hb, hc] at hp; exact absurd hp id
      | some s =>
        rw [hb, hc] at hp
        simp [hb, hc, hp]

/-- Claim C2. For every pair of structured resource references, the pure
extension check succeeds iff both have the same space, the same service, the
same fragment, and the child's path has the parent's path as a prefix (an
absent parent path acting as a wildcard); any mismatch yields "does not
extend"; and the delegation validator's call-site check
(`models/delegation.rs` line 250) additionally requires the child's ability
string to equal the parent's. -/
theorem extension_check_characterisation (child base : ResourceId) :
    (child.extends base = .ok () ↔
      (child.space = base.space ∧ child.service = base.service ∧
        child.fragment = base.fragment ∧ specPathExtends child.path base.path)) ∧
    (∀ a1 a2 : String,
      (Resource.extends (.tinycloud child) (.tinycloud base) && decide (a1 = a2)) = true ↔
        (child.space = base.space ∧ child.service = base.service ∧
          child.fragment = base.fragment ∧ specPathExtends child.path base.path ∧
          a1 = a2)) := by
  refine ⟨extension_check_ok_iff child base, ?_⟩
  intro a1 a2
  rw [Bool.and_eq_true]
  show checkIsOk (child.extends base) = true ∧ _ ↔ _
  rw [checkIsOk_iff, extension_check_ok_iff]
  constructor
  · rintro ⟨⟨h1, h2, h3, h4⟩, h5⟩
    exact ⟨h1, h2, h3, h4, by simpa using h5⟩
  · rintro ⟨h1, h2, h3, h4, h5⟩
    exact ⟨⟨h1, h2, h3, h4⟩, by simpa using h5⟩

/-- Witness for claim C2 at a concrete pair of resources with equal
abilities. -/
theorem extension_check_characterisation_witness :
    (ResourceId.extends
        ⟨⟨"did:pkh:eip155:1:0xAAAA", "default"⟩, "kv", some "notes/a", none, none⟩
        ⟨⟨"did:pkh:eip155:1:0xAAAA", "default"⟩, "kv", some "notes", none, none⟩) = .ok () := by
  refine ((extension_check_characterisation _ _).1).mpr ?_
  exact ⟨rfl, rfl, rfl, by decide⟩

theorem not_dependent_self_rooted (delegator : String) (c : Capability)
    (h : isDependent delegator c = false) :
    ∃ sp, c.resource.space = some sp ∧ sp.did = delegator := by
  unfold isDependent at h
  cases hs : c.resource.space with
  | none => rw [hs] at h; exact absurd h (by simp)
  | some o =>
    rw [hs] at h
    refine ⟨o, rfl, ?_⟩
    by_cases he : o.did = delegator
    · exact he
    · rw [decide_eq_false_iff_not] at h; exact absurd he (by simpa using h)

theorem capSupported_iff (abs : List AbilityRow) (parents : List DelegationRow)
    (c : Capability) :
    capSupported abs parents c = true ↔
      ∃ p ∈ parents, ∃ a ∈ abs, a.delegation = p.id ∧
        c.resource.extends a.resource = true ∧ c.ability = a.ability := by
  unfold capSupported parentAbilities
  rw [List.any_eq_true]
  constructor
  · rintro ⟨pc, hmem, hpred⟩
    rw [List.mem_flatMap] at hmem
    obtain ⟨p, hp, hpc⟩ := hmem
    rw [List.mem_filter] at hpc
    obtain ⟨hpcabs, hdel⟩ := hpc
    rw [Bool.and_eq_true] at hpred
    exact ⟨p, hp, pc, hpcabs, by simpa using hdel, hpred.1, by simpa using hpred.2⟩
  · rintro ⟨p, hp, a, ha, hdel, hext, hab⟩
    refine ⟨a, ?_, ?_⟩
    · rw [List.mem_flatMap]
      exact ⟨p, hp, by rw [List.mem_filter]; exact ⟨ha, by simpa using hdel⟩⟩
    · rw [Bool.and_eq_true]
      exact ⟨hext, by simpa using hab⟩

/-- Claim C1. An accepted delegation with a non-empty parent set only
carries capabilities that are self-rooted or extended by a surviving
parent's capability; the first dependent capability without such support is
rejected with `UnauthorizedCapability(resource, ability)`; and a delegation
with dependent capabilities but no matching parent records is rejected with
`MissingParents`. -/
theorem delegation_attenuation (dels : List DelegationRow) (abs : List AbilityRow)
    (d : DelegationInfo) :
    (validate dels abs d = .ok () → d.parents ≠ [] →
      ∀ c ∈ d.capabilities,
        (∃ sp, c.resource.space = some sp ∧ sp.did = d.delegator) ∨
        (∃ p ∈ (matchingParents dels d).filter (keepParent d), ∃ a ∈ abs,
          a.delegation = p.id ∧ c.resource.extends a.resource = true ∧
            c.ability = a.ability)) ∧
    (∀ r ab, validate dels abs d = .error (.unauthorizedCapability r ab) →
      ∃ c, (dependantCaps d).find?
          (fun c => !capSupported abs ((matchingParents dels d).filter (keepParent d)) c)
          = some c ∧ c.resource = r ∧ c.ability = ab) ∧
    (dependantCaps d ≠ [] → matchingParents dels d = [] →
      validate dels abs d = .error .missingParents) := by
  refine ⟨?_, ?_, ?_⟩
  · intro hok hpar c hc
    by_cases hdep : isDependent d.delegator c = true
    · right
      unfold validate at hok
      cases hde : (dependantCaps d).isEmpty with
      | true =>
        exfalso
        rw [List.isEmpty_iff] at hde
        have : c ∈ dependantCaps d := by
          unfold dependantCaps; rw [List.mem_filter]; exact ⟨hc, hdep⟩
        rw [hde] at this; exact absurd this (List.not_mem_nil c)
      | false =>
        cases hpe : d.parents.isEmpty with
        | true => rw [List.isEmpty_iff] at hpe; exact absurd hpe hpar
        | false =>
          rw [hde, hpe] at hok
          simp only at hok
          by_cases hap : (matchingParents dels d).isEmpty
          · rw [if_pos hap] at hok; exact absurd hok (by simp)
          · rw [if_neg hap] at hok
            by_cases h1 : ((matchingParents dels d).filter (keepParent d)).isEmpty
                ∧ (matchingParents dels d).any (fun p => !expiryValid p d)
            · rw [if_pos (by simp [h1.1, h1.2])] at hok; exact absurd hok (by simp)
            · rw [if_neg (by simpa [Bool.and_eq_true] using h1)] at hok
              by_cases h2 : ((matchingParents dels d).filter (keepParent d)).isEmpty
                  ∧ (matchingParents dels d).any (fun p => !notBeforeValid p d)
              · rw [if_pos (by simp [h2.1, h2.2])] at hok; exact absurd hok (by simp)
              · rw [if_neg (by simpa [Bool.and_eq_true] using h2)] at hok
                cases hf : (dependantCaps d).find?
                    (fun c => !capSupported abs
                      ((matchingParents dels d).filter (keepParent d)) c) with
                | some c0 => rw [hf] at hok; exact absurd hok (by simp)
                | none =>
                  have hcdep : c ∈ dependantCaps d := by
                    unfold dependantCaps; rw [List.mem_filter]; exact ⟨hc, hdep⟩
                  have := List.find?_eq_none.mp hf c hcdep
                  rw [Bool.not_eq_true', Bool.not_eq_false] at this
                  exact (capSupported_iff _ _ _).mp this
    · left
      exact not_dependent_self_rooted d.delegator c (by simpa using hdep)
  · intro r ab herr
    unfold validate at herr
    cases hde : (dependantCaps d).isEmpty with
    | true => rw [hde] at herr; exact absurd herr (by simp)
    | false =>
      cases hpe : d.parents.isEmpty with
      | true => rw [hde, hpe] at herr; exact absurd herr (by simp)
      | false =>
        rw [hde, hpe] at herr
        simp only at herr
        by_cases hap : (matchingParents dels d).isEmpty
        · rw [if_pos hap] at herr; exact absurd herr (by simp)
        · rw [if_neg hap] at herr
          by_cases h1 : ((matchingParents dels d).filter (keepParent d)).isEmpty
              ∧ (matchingParents dels d).any (fun p => !expiryValid p d)
          · rw [if_pos (by simp [h1.1, h1.2])] at herr; exact absurd herr (by simp)
          · rw [if_neg (by simpa [Bool.and_eq_true] using h1)] at herr
            by_cases h2 : ((matchingParents dels d).filter (keepParent d)).isEmpty
                ∧ (matchingParents dels d).any (fun p => !notBeforeValid p d)
            · rw [if_pos (by simp [h2.1, h2.2])] at herr; exact absurd herr (by simp)
            · rw [if_neg (by simpa [Bool.and_eq_true] using h2)] at herr
              cases hf : (dependantCaps d).find?
                  (fun c => !capSupported abs
                    ((matchingParents dels d).filter (keepParent d)) c) with
              | none => rw [hf] at herr; exact absurd herr (by simp)
              | some c0 =>
                rw [hf] at herr
                have h3 : c0.resource = r ∧ c0.ability = ab := by simpa using herr
                exact ⟨c0, rfl, h3.1, h3.2⟩
  · intro hdep hmp
    unfold validate
    cases hde : (dependantCaps d).isEmpty with
    | true => rw [List.isEmpty_iff] at hde; exact absurd hde hdep
    | false =>
      cases hpe : d.parents.isEmpty with
      | true => simp
      | false =>
        simp only
        rw [if_pos (by rw [hmp]; rfl)]

/-- Claim C3. Parents are filtered by containment of the child's
`[nbf, exp]` interval inside the parent's, an absent bound acting as an
infinite one (in particular a parent without expiry accepts any child
expiry including none, a parent with expiry rejects a child without one,
equal expiries are accepted, later child expiry is rejected; symmetrically
for not-before); and when every matching parent is dropped by this filter
the error is `ExpiryExceedsParent` if any parent was dropped for expiry,
else `NotBeforePrecedesParent`. -/
theorem delegation_time_filter (dels : List DelegationRow) (abs : List AbilityRow)
    (d : DelegationInfo) :
    (∀ p, keepParent d p = true ↔
      (expiryBound d.expiry ≤ expiryBound p.expiry ∧
        notBeforeBound p.not_before ≤ notBeforeBound d.not_before)) ∧
    (dependantCaps d ≠ [] → d.parents ≠ [] → matchingParents dels d ≠ [] →
      (matchingParents dels d).filter (keepParent d) = [] →
      validate dels abs d =
        .error (if (matchingParents dels d).any (fun p => !expiryValid p d)
          then .expiryExceedsParent else .notBeforePrecedesParent)) := by
  constructor
  · intro p
    unfold keepParent
    rw [Bool.and_eq_true]
    have he : expiryValid p d = true ↔ expiryBound d.expiry ≤ expiryBound p.expiry := by
      unfold expiryValid expiryBound
      cases hp : p.expiry with
      | none => cases hd : d.expiry <;> simp
      | some pe =>
        cases hd : d.expiry with
        | none => simp [top_le_iff]
        | some de => simp [WithTop.coe_le_coe]
    have hn : notBeforeValid p d = true ↔
        notBeforeBound p.not_before ≤ notBeforeBound d.not_before := by
      unfold notBeforeValid notBeforeBound
      cases hp : p.not_before with
      | none => cases hd : d.not_before <;> simp
      | some pn =>
        cases hd : d.not_before with
        | none => simp [le_bot_iff]
        | some dn => simp [WithBot.coe_le_coe, ge_iff_le]
    rw [he, hn]
  · intro hdep hpar hmp hfil
    unfold validate
    cases hde : (dependantCaps d).isEmpty with
    | true => rw [List.isEmpty_iff] at hde; exact absurd hde hdep
    | false =>
      cases hpe : d.parents.isEmpty with
      | true => rw [List.isEmpty_iff] at hpe; exact absurd hpe hpar
      | false =>
        simp only
        rw [if_neg (by simpa [List.isEmpty_iff] using hmp)]
        have hfe : ((matchingParents dels d).filter (keepParent d)).isEmpty = true := by
          rw [List.isEmpty_iff]; exact hfil
        cases hany : (matchingParents dels d).any (fun p => !expiryValid p d) with
        | true =>
          rw [if_pos (by rw [hfe]; rfl)]
          simp
        | false =>
          rw [if_neg (by rw [hfe]; simp)]
          have hnb : (matchingParents dels d).any (fun p => !notBeforeValid p d) = true := by
            obtain ⟨p, hpmem⟩ := List.exists_mem_of_ne_nil _ hmp
            have hdrop : keepParent d p = false := by
              have := List.filter_eq_nil_iff.mp hfil p hpmem
              simpa using this
            have hev : expiryValid p d = true := by
              have := List.any_eq_false.mp hany p hpmem
              simpa using this
            unfold keepParent at hdrop
            rw [hev, Bool.true_and] at hdrop
            rw [List.any_eq_true]
            exact ⟨p, hpmem, by simp [hdrop]⟩
          rw [if_pos (by rw [hfe, hnb]; rfl)]
          simp

/-- Witness for claim C1: a concrete accepted delegation with one parent,
whose single dependent capability is supported by that parent. -/
theorem delegation_attenuation_witness :
    wChild.parents ≠ [] ∧ validate [wParent] [wAbility] wChild = .ok () ∧
      ((∃ sp, wChildCap.resource.space = some sp ∧ sp.did = wChild.delegator) ∨
        (∃ p ∈ (matchingParents [wParent] wChild).filter (keepParent wChild),
          ∃ a ∈ [wAbility], a.delegation = p.id ∧
            wChildCap.resource.extends a.resource = true ∧
              wChildCap.ability = a.ability)) := by
  refine ⟨by simp [wChild], rfl, ?_⟩
  exact (delegation_attenuation [wParent] [wAbility] wChild).1 rfl
    (by simp [wChild]) wChildCap (by simp [wChild])

/-- Witness for claim C3: the concrete child expires after its only parent,
so validation fails with `ExpiryExceedsParent`, and the filter
characterisation holds at that parent. -/
theorem delegation_time_filter_witness :
    (keepParent wLateChild wLateParent = true ↔
      (expiryBound wLateChild.expiry ≤ expiryBound wLateParent.expiry ∧
        notBeforeBound wLateParent.not_before ≤ notBeforeBound wLateChild.not_before)) ∧
    validate [wLateParent] [wAbility] wLateChild =
      .error (if (matchingParents [wLateParent] wLateChild).any
          (fun p => !expiryValid p wLateChild)
        then .expiryExceedsParent else .notBeforePrecedesParent) := by
  refine ⟨(delegation_time_filter [wLateParent] [wAbility] wLateChild).1 wLateParent, ?_⟩
  exact (delegation_time_filter [wLateParent] [wAbility] wLateChild).2
    (by simp [wLateChild, dependantCaps, wChildCap, isDependent, Resource.space])
    (by simp [wLateChild]) (by simp [matchingParents, wLateChild, wLateParent, hashFromCid])
    (by rfl)

theorem hash_inv_as_match (invHash : Hash) (sp : SpaceId) (ops : List Operation) :
    hash_inv invHash sp ops =
      match opDocsFor sp ops with
      | [] => .one (hashToCid 0x55 invHash)
      | opDocs => .many (hashToCid 0x55 invHash ::
          opDocs.map (fun opd => hashToCid 0x71 (blake3 (encOpDoc opd)))) := by
  unfold hash_inv
  cases h : opDocsFor sp ops with
  | nil => simp [RAW_CODEC]
  | cons a l => simp [h, RAW_CODEC, CBOR_CODEC]

/-- Counterexample to claim C4 as stated: at a concrete epoch holding one
invocation with one KV put, the epoch id computed by the code differs from
the id predicted by the claim, because the code converts the blob hash
inside the op descriptor to a CID with the dag-cbor multicodec (0x71,
`value.to_cid(CBOR_CODEC)` in `hash_inv`), not the raw multicodec (0x55). -/
theorem epoch_hash_blob_codec_counterexample :
    epoch_hash ⟨"did:A", "s"⟩
        [([7], .invocation ⟨[], "did:I", []⟩ [7] [.kvWrite ⟨"did:A", "s"⟩ "k" [3] []])] []
      ≠ epochHashSpec 0x55 ⟨"did:A", "s"⟩
        [([7], .invocation ⟨[], "did:I", []⟩ [7] [.kvWrite ⟨"did:A", "s"⟩ "k" [3] []])] [] := by
  decide

/-- Claim C4, amended: the epoch id is the Blake3 hash of the dag-cbor
document `{parents, events}` with parent hashes as dag-cbor-codec (0x71)
CIDs, delegation and revocation events as single raw-codec (0x55) CIDs,
and each invocation that performed KV operations in the space as a list
headed by the invocation's raw CID followed by one CID per operation (the
Blake3 hash of the dag-cbor op descriptor), where blob and version hashes
inside op descriptors are converted to CIDs with the dag-cbor (0x71)
multicodec — not the raw multicodec the claim stated. -/
theorem epoch_hash_characterisation (space : SpaceId) (events : List (Hash × Event))
    (parents : List Hash) :
    epoch_hash space events parents = epochHashSpec 0x71 space events parents := by
  unfold epoch_hash epochHashSpec
  congr 2
  apply List.map_congr_left
  intro he _
  cases h2 : he.2 with
  | delegation d ser => simp [RAW_CODEC]
  | revocation r ser => simp [RAW_CODEC]
  | invocation i ser ops =>
    dsimp only
    rw [hash_inv_as_match]
    have hdocs : (ops.filterMap (fun op => match op with
        | .kvWrite sp2 key value metadata =>
          if sp2 = space then some (OpDoc.kvWrite key (hashToCid 0x71 value) metadata)
          else none
        | .kvDelete sp2 key version =>
          if sp2 = space then
            some (OpDoc.kvDelete key
              (version.map (fun v => (v.1, hashToCid 0x71 v.2.1, v.2.2))))
          else none)) = opDocsFor space ops := by
      unfold opDocsFor CBOR_CODEC
      rfl
    rw [hdocs]

theorem save_preserves (st : DbState) (d : DelegationInfo) (ser : List Nat) :
    ((save st d ser).1).spaces = st.spaces ∧ ((save st d ser).1).epochs = st.epochs ∧
      ((save st d ser).1).epochOrder = st.epochOrder ∧
      ((save st d ser).1).eventOrder = st.eventOrder := by
  unfold save
  by_cases h : st.delegations.any (fun row => decide (row.id = blake3 ser)) <;> simp [h]

theorem processEvents_preserves (evs : List (Hash × Event)) (st st2 : DbState)
    (h : processEvents st evs = .ok st2) :
    st2.spaces = st.spaces ∧ st2.epochs = st.epochs ∧
      st2.epochOrder = st.epochOrder ∧ st2.eventOrder = st.eventOrder := by
  induction evs generalizing st with
  | nil =>
    simp only [processEvents] at h
    cases h
    exact ⟨rfl, rfl, rfl, rfl⟩
  | cons he rest ih =>
    obtain ⟨hh, e⟩ := he
    cases e with
    | delegation d ser =>
      simp only [processEvents] at h
      cases hd : dprocess st d ser with
      | error e2 => rw [hd] at h; exact absurd h (by simp)
      | ok st3 =>
        rw [hd] at h
        have hsv : st3 = (save st d ser).1 := by
          unfold dprocess at hd
          cases hv : validate st.delegations st.abilities d with
          | error e3 => rw [hv] at hd; exact absurd hd (by simp)
          | ok u => rw [hv] at hd; cases hd; rfl
        have h1 := ih st3 h
        have h2 := save_preserves st d ser
        rw [hsv] at h1
        exact ⟨h1.1.trans h2.1, h1.2.1.trans h2.2.1,
          h1.2.2.1.trans h2.2.2.1, h1.2.2.2.trans h2.2.2.2⟩
    | invocation i ser ops =>
      simp only [processEvents] at h
      have h1 := ih (iprocess st hh) h
      simpa [iprocess] using h1
    | revocation r ser =>
      simp only [processEvents] at h
      have h1 := ih (rprocess st r hh) h
      simpa [rprocess] using h1

/-- Claim C5. For every transaction that commits events touching a space:
the new epoch's parents are exactly the current tip epochs of that space
(epoch ids with no child edge in `epoch_order`), the epoch gets sequence
number max(existing seq for the space) + 1 (when the space has prior
events), and every event in the group gets `epoch_seq` equal to its
zero-based index in the space's event list in submission order. -/
theorem epoch_ordering (st : DbState) (events : List Event) (st2 : DbState)
    (out : List (SpaceId × Commit)) (h : transact st events = .ok (st2, out)) :
    ∀ g ∈ groupsOf st events,
      ((g.1, Commit.mk (epoch_hash g.1 g.2 (tips st g.1)) (nextSeq st g.1)
          (g.2.map (·.1)) (tips st g.1)) ∈ out) ∧
      (EpochRow.mk (epoch_hash g.1 g.2 (tips st g.1)) g.1 (nextSeq st g.1) ∈ st2.epochs) ∧
      (∀ p ∈ tips st g.1,
        EpochOrderRow.mk p (epoch_hash g.1 g.2 (tips st g.1)) g.1 ∈ st2.epochOrder) ∧
      (∀ i (hi : i < g.2.length),
        EventOrderRow.mk (nextSeq st g.1) (epoch_hash g.1 g.2 (tips st g.1)) (i : Int)
          (g.2.get ⟨i, hi⟩).1 g.1 ∈ st2.eventOrder) ∧
      (st.eventOrder.any (fun r => decide (r.space = g.1)) = true →
        ∃ m, maxSeqRows st.eventOrder g.1 = some m ∧ nextSeq st g.1 = m + 1) := by
  intro g hg
  unfold transact at h
  by_cases hc : (groupsOf st events).any (fun g => !((spacesAfter st events).contains g.1))
  · rw [if_pos hc] at h; exact absurd h (by simp)
  · rw [if_neg hc] at h
    cases hp : processEvents
        { st with
          spaces := spacesAfter st events,
          epochs := st.epochs ++ (groupsOf st events).map (fun g => (spaceCommitRows st g).1),
          epochOrder := st.epochOrder ++
            (groupsOf st events).flatMap (fun g => (spaceCommitRows st g).2.1),
          eventOrder := st.eventOrder ++
            (groupsOf st events).flatMap (fun g => (spaceCommitRows st g).2.2.1) }
        (evHashes events) with
    | error e => rw [hp] at h; exact absurd h (by simp)
    | ok st3 =>
      rw [hp] at h
      have hout : out = (groupsOf st events).map (fun g => (g.1, (spaceCommitRows st g).2.2.2)) := by
        cases h; rfl
      have hst : st2 = st3 := by cases h; rfl
      have hpres := processEvents_preserves _ _ _ hp
      refine ⟨?_, ?_, ?_, ?_, ?_⟩
      · rw [hout]
        exact List.mem_map.mpr ⟨g, hg, rfl⟩
      · rw [hst, hpres.2.1]
        exact List.mem_append_right _ (List.mem_map.mpr ⟨g, hg, rfl⟩)
      · intro p hpmem
        rw [hst, hpres.2.2.1]
        refine List.mem_append_right _ (List.mem_flatMap.mpr ⟨g, hg, ?_⟩)
        exact List.mem_map.mpr ⟨p, hpmem, rfl⟩
      · intro i hi
        rw [hst, hpres.2.2.2]
        refine List.mem_append_right _ (List.mem_flatMap.mpr ⟨g, hg, ?_⟩)
        refine List.mem_map.mpr ⟨(i, g.2.get ⟨i, hi⟩), ?_, rfl⟩
        have hlen : i < g.2.enum.length := by rw [List.enum_length]; exact hi
        have : g.2.enum.get ⟨i, hlen⟩ = (i, g.2.get ⟨i, hi⟩) := by
          simp [List.getElem_enum]
        rw [← this]
        exact List.get_mem _ _ hlen
      · intro hany
        have hne : (st.eventOrder.filter (fun r => decide (r.space = g.1))) ≠ [] := by
          rw [List.any_eq_true] at hany
          obtain ⟨r, hr, hrs⟩ := hany
          intro hnil
          have : r ∈ st.eventOrder.filter (fun r => decide (r.space = g.1)) :=
            List.mem_filter.mpr ⟨hr, hrs⟩
          rw [hnil] at this
          exact absurd this (List.not_mem_nil r)
        cases hm : maxSeqRows st.eventOrder g.1 with
        | none =>
          exfalso
          unfold maxSeqRows at hm
          rw [List.max?_eq_none_iff, List.map_eq_nil_iff] at hm
          exact absurd hm hne
        | some m =>
          exact ⟨m, rfl, by unfold nextSeq; rw [hm]⟩

/-- Claim C6 (amended form). A space row that appears through a successful
transaction comes from a delegation event carrying a `tinycloud.space/host`
capability on a bare space resource (self-rooted or not — the `new_spaces`
filter checks only the resource shape and ability); a touched space that
neither exists nor is created in the transaction fails it with
`SpaceNotFound`; and a failed transaction persists nothing. -/
theorem space_creation (st : DbState) (events : List Event) :
    (∀ st2 out, transact st events = .ok (st2, out) →
      ∀ sp, sp ∈ st2.spaces → sp ∉ st.spaces →
        ∃ e ∈ events, ∃ dl ser, e = Event.delegation dl ser ∧
          ∃ c ∈ dl.capabilities, hostSpacesOf c = some sp) ∧
    (∀ g ∈ groupsOf st events, g.1 ∉ st.spaces → g.1 ∉ newSpacesOf (evHashes events) →
      transact st events = .error .spaceNotFound) ∧
    (∀ e, transact st events = .error e → transactOuter st events = (st, none)) := by
  refine ⟨?_, ?_, ?_⟩
  · intro st2 out h sp hsp hnot
    unfold transact at h
    by_cases hc : (groupsOf st events).any (fun g => !((spacesAfter st events).contains g.1))
    · rw [if_pos hc] at h; exact absurd h (by simp)
    · rw [if_neg hc] at h
      cases hp : processEvents
          { st with
            spaces := spacesAfter st events,
            epochs := st.epochs ++ (groupsOf st events).map (fun g => (spaceCommitRows st g).1),
            epochOrder := st.epochOrder ++
              (groupsOf st events).flatMap (fun g => (spaceCommitRows st g).2.1),
            eventOrder := st.eventOrder ++
              (groupsOf st events).flatMap (fun g => (spaceCommitRows st g).2.2.1) }
          (evHashes events) with
      | error e => rw [hp] at h; exact absurd h (by simp)
      | ok st3 =>
        rw [hp] at h
        have hst : st2 = st3 := by cases h; rfl
        have hpres := processEvents_preserves _ _ _ hp
        have hsp2 : sp ∈ spacesAfter st events := by
          rw [hst, hpres.1] at hsp
          exact hsp
        unfold spacesAfter at hsp2
        rcases List.mem_append.mp hsp2 with hl | hr
        · exact absurd hl hnot
        · have hmem : sp ∈ newSpacesOf (evHashes events) := by
            have := (List.mem_filter.mp hr).1
            exact List.mem_dedup.mp this
          unfold newSpacesOf at hmem
          obtain ⟨he, hhe, hcap⟩ := List.mem_flatMap.mp hmem
          unfold evHashes at hhe
          obtain ⟨e, hev, heq⟩ := List.mem_map.mp hhe
          subst heq
          dsimp only at hcap
          cases e with
          | delegation dl ser =>
            dsimp only at hcap
            obtain ⟨c, hcmem, hcs⟩ := List.mem_filterMap.mp hcap
            exact ⟨Event.delegation dl ser, hev, dl, ser, rfl, c, hcmem, hcs⟩
          | invocation i ser ops => simp at hcap
          | revocation r ser => simp at hcap
  · intro g hg hnot1 hnot2
    unfold transact
    rw [if_pos]
    rw [List.any_eq_true]
    refine ⟨g, hg, ?_⟩
    have hnm : g.1 ∉ spacesAfter st events := by
      unfold spacesAfter
      rw [List.mem_append]
      push_neg
      exact ⟨hnot1, fun hmem => absurd (List.mem_dedup.mp (List.mem_filter.mp hmem).1) hnot2⟩
    simpa using hnm
  · intro e he
    unfold transactOuter
    rw [he]

/-- Counterexample to claim C6 as stated: starting from the empty database,
the transaction `[pEvent, dEvent]` succeeds and creates the space row for
`spX`, yet no event in it carries a capability that is simultaneously a
bare `tinycloud.space/host` capability on `spX` and self-rooted —
`pEvent`'s host capability has a query component (so the `new_spaces`
filter ignores it) and `dEvent`'s bare host capability is delegated by the
session key, not the space's root DID. The `new_spaces` filter in
`transact` never checks self-rootedness. -/
theorem space_creation_counterexample :
    (match transact db0 [pEvent, dEvent] with
      | .ok (st2, _) => decide (spX ∈ st2.spaces)
      | .error _ => false) = true ∧
    db0.spaces = [] ∧
    (∀ c ∈ pDeleg.capabilities,
      ¬(hostSpacesOf c = some spX ∧ isDependent pDeleg.delegator c = false)) ∧
    (∀ c ∈ dDeleg.capabilities,
      ¬(hostSpacesOf c = some spX ∧ isDependent dDeleg.delegator c = false)) := by
  refine ⟨by decide, rfl, by decide, by decide⟩

/-- Witness for claim C6 (amended): applying the creation theorem to the
concrete scenario locates the bare host capability behind the new space. -/
theorem space_creation_witness :
    ∃ e ∈ [pEvent, dEvent], ∃ dl ser, e = Event.delegation dl ser ∧
      ∃ c ∈ dl.capabilities, hostSpacesOf c = some spX := by
  cases htr : transact db0 [pEvent, dEvent] with
  | error e =>
    exfalso
    have hok : (match transact db0 [pEvent, dEvent] with
      | .ok _ => true
      | .error _ => false) = true := by decide
    rw [htr] at hok
    exact absurd hok (by simp)
  | ok r =>
    obtain ⟨st2, out⟩ := r
    have hsp : spX ∈ st2.spaces := by
      have hok : (match transact db0 [pEvent, dEvent] with
        | .ok r2 => decide (spX ∈ r2.1.spaces)
        | .error _ => false) = true := by decide
      rw [htr] at hok
      simpa using hok
    exact (space_creation db0 [pEvent, dEvent]).1 st2 out htr spX hsp (by decide)

/-- Witness for claim C5: committing one invocation on top of one existing
epoch consumes that epoch as parent and gets sequence number max + 1. -/
theorem epoch_ordering_witness :
    ∃ st2 out, transact dbW [wInv] = .ok (st2, out) ∧
      ((spX, Commit.mk (epoch_hash spX [([3], wInv)] (tips dbW spX)) (nextSeq dbW spX)
        [[3]] (tips dbW spX)) ∈ out) ∧
      (∃ m, maxSeqRows dbW.eventOrder spX = some m ∧ nextSeq dbW spX = m + 1) := by
  cases htr : transact dbW [wInv] with
  | error e =>
    exfalso
    have hok : (match transact dbW [wInv] with
      | .ok _ => true
      | .error _ => false) = true := by decide
    rw [htr] at hok
    exact absurd hok (by simp)
  | ok r =>
    obtain ⟨st2, out⟩ := r
    have hg : (spX, [(([3] : Hash), wInv)]) ∈ groupsOf dbW [wInv] := by decide
    have happ := epoch_ordering dbW [wInv] st2 out htr (spX, [(([3] : Hash), wInv)]) hg
    exact ⟨st2, out, rfl, happ.1, happ.2.2.2.2 (by decide)⟩

/-- Claim C7. The event hash is the Blake3 digest of the exact received
bytes (the JWT string's UTF-8 bytes for UCAN, the base64-decoded CBOR bytes
for CACAO), never of a re-serialization — so byte-identical resubmission
yields the identical hash — and re-inserting an already-committed
delegation is a no-op: the delegation rows, ability rows and parent edges
are unchanged and the same hash is returned. -/
theorem event_hash_canonical :
    (∀ s b, headerBytes s = some b →
      eventHashOfHeader s = some (blake3 b) ∧
      (s.data.contains '.' = true → b = strBytes s) ∧
      (s.data.contains '.' = false → urlSafeB64Decode s = some b)) ∧
    (∀ (st : DbState) (d : DelegationInfo) (ser : List Nat),
      (∃ row ∈ st.delegations, row.id = blake3 ser) →
      (save st d ser).2 = blake3 ser ∧
      ((save st d ser).1).delegations = st.delegations ∧
      ((save st d ser).1).abilities = st.abilities ∧
      ((save st d ser).1).parentEdges = st.parentEdges) := by
  constructor
  · intro s b hb
    refine ⟨by unfold eventHashOfHeader; rw [hb]; rfl, ?_, ?_⟩
    · intro hdot
      unfold headerBytes at hb
      rw [hdot] at hb
      simp only [if_true] at hb
      cases hb
      rfl
    · intro hdot
      unfold headerBytes at hb
      rw [hdot] at hb
      simpa using hb
  · intro st d ser hex
    have hany : st.delegations.any (fun row => decide (row.id = blake3 ser)) = true := by
      rw [List.any_eq_true]
      obtain ⟨row, hrow, hid⟩ := hex
      exact ⟨row, hrow, by simpa using hid⟩
    unfold save
    rw [if_pos hany]
    exact ⟨rfl, rfl, rfl, rfl⟩

/-- Witness for claim C7: a concrete dotted (UCAN) header and a concrete
resubmission of an already-stored delegation. -/
theorem event_hash_canonical_witness :
    (eventHashOfHeader "a.b" = some (blake3 (strBytes "a.b"))) ∧
    ((save ⟨[], [⟨[9], "did:key:zA", "did:key:zB", none, none, none, [9]⟩],
          [], [], [], [], [], [], [], []⟩
        ⟨[], "did:key:zA", "did:key:zB", [], none, none, none⟩ [9]).1).delegations =
      [⟨[9], "did:key:zA", "did:key:zB", none, none, none, [9]⟩] := by
  constructor
  · have hb : headerBytes "a.b" = some (strBytes "a.b") := by decide
    exact (event_hash_canonical.1 "a.b" (strBytes "a.b") hb).1
  · exact (event_hash_canonical.2
      ⟨[], [⟨[9], "did:key:zA", "did:key:zB", none, none, none, [9]⟩],
        [], [], [], [], [], [], [], []⟩
      ⟨[], "did:key:zA", "did:key:zB", [], none, none, none⟩ [9]
      ⟨⟨[9], "did:key:zA", "did:key:zB", none, none, none, [9]⟩, by decide, by decide⟩).2.1

theorem resolveLoop_orig_or_pkh (dels : List DelegationRow) (fuel : Nat)
    (visited : List String) (current orig : String) :
    resolveLoop dels fuel visited current orig = orig ∨
      strStartsWith (resolveLoop dels fuel visited current orig) "did:pkh:" = true := by
  induction fuel generalizing visited current with
  | zero => left; rfl
  | succ n ih =>
    unfold resolveLoop
    by_cases hv : current ∈ visited
    · rw [if_pos hv]; left; rfl
    · rw [if_neg hv]
      cases hf : dels.find? (fun p => decide (p.delegatee = current)) with
      | none => left; rfl
      | some del =>
        dsimp only
        by_cases hp : strStartsWith del.delegator "did:pkh:" = true
        · rw [if_pos hp]; right; exact hp
        · rw [if_neg hp]; exact ih (current :: visited) del.delegator

/-- Claim C8. Every row returned by the filtered capabilities/read list
query is unrevoked and time-valid at query time; the direction filter
compares against the invoker's resolved root PKH DID ("created" keeps rows
whose delegator equals it, "received" rows whose delegatee equals it); and
the resolver returns a `did:pkh:` input unchanged, walks delegatee to
delegator with a visited set breaking cycles, and otherwise returns either
the original DID or a `did:pkh:` DID. -/
theorem filtered_delegations_properties (st : DbState) (space : SpaceId) (invoker : String)
    (filters : Option ListFilters) (now : Int) :
    (∀ d ∈ get_filtered_delegations st space invoker filters now,
      (st.revocations.any (fun r => decide (r.revoked = d.id)) = false) ∧
      (∀ e, d.expiry = some e → now < e) ∧
      (∀ n, d.not_before = some n → n ≤ now) ∧
      (filters.bind (·.direction) = some "created" →
        d.delegator = resolve_pkh_did st.delegations invoker) ∧
      (filters.bind (·.direction) = some "received" →
        d.delegatee = resolve_pkh_did st.delegations invoker)) ∧
    (strStartsWith invoker "did:pkh:" = true →
      resolve_pkh_did st.delegations invoker = invoker) ∧
    (resolve_pkh_did st.delegations invoker = invoker ∨
      strStartsWith (resolve_pkh_did st.delegations invoker) "did:pkh:" = true) := by
  refine ⟨?_, ?_, ?_⟩
  · intro d hd
    unfold get_filtered_delegations at hd
    have h1 := List.mem_filter.mp hd
    have h2 := List.mem_filter.mp h1.1
    have hrev : st.revocations.any (fun r => decide (r.revoked = d.id)) = false := by
      have := h2.2
      simpa using this
    have hconj := h1.2
    rw [Bool.and_eq_true, Bool.and_eq_true, Bool.and_eq_true, Bool.and_eq_true] at hconj
    obtain ⟨⟨⟨⟨htime, hspace⟩, hdir⟩, hpath⟩, hact⟩ := hconj
    refine ⟨hrev, ?_, ?_, ?_, ?_⟩
    · intro e he
      unfold rowTimeValid at htime
      rw [Bool.and_eq_true] at htime
      have := htime.1
      rw [he] at this
      simpa [gt_iff_lt] using this
    · intro n hn
      unfold rowTimeValid at htime
      rw [Bool.and_eq_true] at htime
      have := htime.2
      rw [hn] at this
      simpa using this
    · intro hcre
      rw [hcre] at hdir
      simpa using hdir
    · intro hrec
      rw [hrec] at hdir
      simpa using hdir
  · intro hp
    unfold resolve_pkh_did
    rw [if_pos hp]
  · unfold resolve_pkh_did
    by_cases hp : strStartsWith invoker "did:pkh:" = true
    · rw [if_pos hp]; left; rfl
    · rw [if_neg hp]
      exact resolveLoop_orig_or_pkh st.delegations (st.delegations.length + 2) [] invoker invoker

/-- Witness for claim C8: with direction "created", the session key's query
resolves to the PKH root and the stored delegation passes the filter; a PKH
invoker resolves to itself. -/
theorem filtered_delegations_properties_witness :
    wRowA.delegator = resolve_pkh_did stW.delegations "did:key:zB" ∧
    resolve_pkh_did stW.delegations "did:pkh:eip155:1:0xA" = "did:pkh:eip155:1:0xA" := by
  constructor
  · exact ((filtered_delegations_properties stW spX "did:key:zB"
      (some ⟨some "created", none, none⟩) 0).1 wRowA (by decide)).2.2.2.1 (by decide)
  · exact (filtered_delegations_properties stW spX "did:pkh:eip155:1:0xA" none 0).2.1 (by decide)

/-- Claim C9. With no SQL capabilities in play: an invocation carrying a
put capability but no request body is rejected with status 400; two or more
put capabilities with one body are rejected with status 400; and exactly
one put capability with one body proceeds, staging that body for the put's
space and path. -/
theorem invoke_put_body_rules (caps : List Capability) (data : DataIn)
    (hsql : (sqlCapsOf caps).isEmpty = true) :
    (putCapsOf caps ≠ [] → data = .noBody →
      invoke_route caps data = .rejected 400 "Invalid inputs") ∧
    (2 ≤ (putCapsOf caps).length → data = .oneBody →
      invoke_route caps data = .rejected 400 "Invalid inputs") ∧
    (∀ space path, putCapsOf caps = [(space, some path)] → data = .oneBody →
      invoke_route caps data = .proceed [(space, path)]) := by
  refine ⟨?_, ?_, ?_⟩
  · intro hne hdata
    obtain ⟨p, rest, hcons⟩ := List.exists_cons_of_ne_nil hne
    subst hdata
    unfold invoke_route
    rw [if_neg (by rw [hsql]; simp)]
    rw [hcons]
    rfl
  · intro hlen hdata
    match hcons : putCapsOf caps with
    | [] => rw [hcons] at hlen; exact absurd hlen (by simp)
    | [p] => rw [hcons] at hlen; exact absurd hlen (by simp)
    | ⟨s1, p1⟩ :: ⟨s2, p2⟩ :: rest =>
      subst hdata
      unfold invoke_route
      rw [if_neg (by rw [hsql]; simp)]
      rw [hcons]
      cases p1 with
      | none => rfl
      | some path1 => rfl
  · intro space path hcons hdata
    subst hdata
    unfold invoke_route
    rw [if_neg (by rw [hsql]; simp)]
    rw [hcons]
    rfl

/-- Witness for claim C9 at concrete capability lists: one put capability
and no body is rejected; one put capability and one body proceeds; two put
capabilities and one body are rejected. -/
theorem invoke_put_body_rules_witness :
    invoke_route [⟨.tinycloud ⟨spX, "kv", some "k", none, none⟩, "tinycloud.kv/put"⟩]
        .noBody = .rejected 400 "Invalid inputs" ∧
    invoke_route [⟨.tinycloud ⟨spX, "kv", some "k", none, none⟩, "tinycloud.kv/put"⟩]
        .oneBody = .proceed [(spX, "k")] ∧
    invoke_route [⟨.tinycloud ⟨spX, "kv", some "k", none, none⟩, "tinycloud.kv/put"⟩,
        ⟨.tinycloud ⟨spX, "kv", some "j", none, none⟩, "tinycloud.kv/put"⟩]
        .oneBody = .rejected 400 "Invalid inputs" := by
  refine ⟨?_, ?_, ?_⟩
  · exact (invoke_put_body_rules _ _ (by decide)).1 (by decide) rfl
  · exact (invoke_put_body_rules _ _ (by decide)).2.2 spX "k" (by decide) rfl
  · exact (invoke_put_body_rules _ _ (by decide)).2.1 (by decide) rfl

/-- Claim C10. The extension check never inspects the query component:
replacing both queries by arbitrary ones does not change the result, so two
resources differing only in their queries still extend one another whenever
space, service, fragment and path satisfy the extension rule. -/
theorem extends_ignores_query (r1 r2 : ResourceId) (q1 q2 : Option String) :
    ResourceId.extends { r1 with query := q1 } { r2 with query := q2 } =
      ResourceId.extends { r1 with query := none } { r2 with query := none } := rfl

end TinyCloud
